import Mathlib

/-!
# Verification of the `NumbersUpTo1e1000` arbitrary-range decimal library

A shallow embedding of `src/BigNumbers.js`: the `BigNum` value type
(`value = sign * coefficient * 10^exponent`), its constructor/normalisation,
parsing, the arithmetic operations (`add`, `sub`, `mul`, `div`, `pow`),
comparison (`cmp`) and the two formatters (`toString`, `toFixed`).

Modelling conventions:
* JavaScript `BigInt` is `Int`; `BigInt` division/remainder (truncated towards
  zero) are `Int.tdiv`/`Int.tmod`.
* The `exponent` field is a JavaScript number that every construction passes
  through the bitwise coercion `| 0` (ToInt32); this is `toInt32` below.
  The values flowing into it are integers, so it is modelled on `Int`.
* JavaScript strings are `List Char` (wrapped into `String` at the interface).
* Fallible operations return `Except`; the distinct `throw new Error(...)`
  sites are the constructors of `ParseErr` and `ArithErr`.
* Loops (`_normalize`'s trailing-zero stripping, `pow`'s square-and-multiply)
  are written with an explicit fuel that is provably sufficient, so that every
  definition evaluates by kernel reduction on concrete inputs.
-/

/-- The representation from `src/BigNumbers.js`:
`value = sign * coefficient * 10^exponent`. -/
structure BigNum where
  coefficient : Int
  exponent : Int
  sign : Int
  deriving DecidableEq, Repr

/-- JavaScript's ToInt32 (`x | 0`): reduce modulo `2^32` into
`[-2^31, 2^31)`. -/
def toInt32 (e : Int) : Int := (e + 2 ^ 31) % 2 ^ 32 - 2 ^ 31

instance {ε α : Type} [DecidableEq ε] [DecidableEq α] :
    DecidableEq (Except ε α) := fun x y =>
  match x, y with
  | .ok a, .ok b =>
      if h : a = b then .isTrue (by rw [h])
      else .isFalse (by intro hh; cases hh; exact h rfl)
  | .ok _, .error _ => .isFalse (by intro hh; cases hh)
  | .error _, .ok _ => .isFalse (by intro hh; cases hh)
  | .error a, .error b =>
      if h : a = b then .isTrue (by rw [h])
      else .isFalse (by intro hh; cases hh; exact h rfl)

namespace BigNum

/-- The trailing-zero-stripping loop of `_normalize`
(`while (this.coefficient % 10n === 0n) { this.coefficient /= 10n; this.exponent += 1; }`),
with explicit fuel. The loop runs while the coefficient is nonzero and
divisible by ten; each step divides the coefficient by ten exactly and bumps
the exponent. -/
def stripZerosF : Nat → Int → Int → Int × Int
  | 0, c, e => (c, e)
  | fuel + 1, c, e =>
      if c ≠ 0 ∧ c % 10 = 0 then stripZerosF fuel (c / 10) (e + 1) else (c, e)

/-- `|c|` steps of fuel always reach the loop's exit condition. -/
def stripZeros (c e : Int) : Int × Int := stripZerosF c.natAbs c e

/-- The `BigNum` constructor together with `_normalize` (the constructor always
ends by calling `_normalize`, and nothing else ever calls it): coerce the
exponent with `| 0`, default the sign to `+1` unless it is exactly `-1`,
canonicalise zero, strip trailing zeros, and move a negative coefficient's
sign into the `sign` field. -/
def mkBigNum (c e s : Int) : BigNum :=
  if c = 0 then ⟨0, 0, 1⟩
  else
    let s0 : Int := if s = -1 then -1 else 1
    let p := stripZeros c (toInt32 e)
    if p.1 < 0 then ⟨-p.1, p.2, -1⟩ else ⟨p.1, p.2, s0⟩

/-- `BigNum.ZERO = new BigNum(0n, 0, 1)`. -/
def ZERO : BigNum := mkBigNum 0 0 1

/-- `new BigNum(1n, 0, 1)`, the value `pow` returns for exponent `0`. -/
def one : BigNum := mkBigNum 1 0 1

/-- `BigNum._align(a, b)`: returns `[aCoeff, bCoeff, exponent]` as in the
source. Note that when the exponents differ the source multiplies the
coefficient of the operand with the *smaller* exponent by `10^diff` and
returns the *larger* exponent as the common one. -/
def align (a b : BigNum) : Int × Int × Int :=
  if a.coefficient = 0 then (0, b.coefficient * b.sign, b.exponent)
  else if b.coefficient = 0 then (a.coefficient * a.sign, 0, a.exponent)
  else if a.exponent = b.exponent then
    (a.coefficient * a.sign, b.coefficient * b.sign, a.exponent)
  else if a.exponent > b.exponent then
    let diff := a.exponent - b.exponent
    (a.coefficient * a.sign, b.coefficient * 10 ^ diff.toNat * b.sign,
      b.exponent + diff)
  else
    let diff := b.exponent - a.exponent
    (a.coefficient * 10 ^ diff.toNat * a.sign, b.coefficient * b.sign,
      a.exponent + diff)

/-- `add`. -/
def add (a b : BigNum) : BigNum :=
  if a.coefficient = 0 then mkBigNum b.coefficient b.exponent b.sign
  else if b.coefficient = 0 then mkBigNum a.coefficient a.exponent a.sign
  else
    let t := align a b
    let sum := t.1 + t.2.1
    if sum = 0 then ZERO
    else mkBigNum (if sum < 0 then -sum else sum) t.2.2 (if sum < 0 then -1 else 1)

/-- The negation `sub` builds internally
(`new BigNum(other.coefficient, other.exponent, -other.sign)`); the spec calls
this `negate`. -/
def negate (b : BigNum) : BigNum := mkBigNum b.coefficient b.exponent (-b.sign)

/-- `sub`: add the negation of the second operand. -/
def sub (a b : BigNum) : BigNum := add a (negate b)

/-- `mul`. -/
def mul (a b : BigNum) : BigNum :=
  if a.coefficient = 0 ∨ b.coefficient = 0 then ZERO
  else mkBigNum (a.coefficient * b.coefficient) (a.exponent + b.exponent)
    (a.sign * b.sign)

/-- `cmp`. -/
def cmp (a b : BigNum) : Int :=
  if a.coefficient = 0 ∧ b.coefficient = 0 then 0
  else if a.sign ≠ b.sign then (if a.sign > b.sign then 1 else -1)
  else
    let t := align a b
    if t.1 = t.2.1 then 0
    else
      let c : Int := if t.1 > t.2.1 then 1 else -1
      if a.sign = 1 then c else -c

/-- The mathematical value `sign × coefficient × 10^exponent` of a `BigNum`,
as a rational. -/
def value (x : BigNum) : ℚ :=
  (x.sign : ℚ) * (x.coefficient : ℚ) * (10 : ℚ) ^ x.exponent

/-- The canonical-form invariants of the data model: canonical zero, and a
positive coefficient not divisible by ten otherwise. -/
def IsCanonical (x : BigNum) : Prop :=
  (x.coefficient = 0 → x.exponent = 0 ∧ x.sign = 1) ∧
    (x.coefficient ≠ 0 → 0 < x.coefficient ∧ ¬(10 ∣ x.coefficient))

instance (x : BigNum) : Decidable (IsCanonical x) := by
  unfold IsCanonical; infer_instance

/-- A well-formed instance: canonical and with a `±1` sign, as every object
the constructor returns is. -/
def WF (x : BigNum) : Prop := IsCanonical x ∧ (x.sign = 1 ∨ x.sign = -1)

instance (x : BigNum) : Decidable (WF x) := by
  unfold WF; infer_instance

end BigNum

/-! ## Decimal digit strings -/

/-- Fuelled digit rendering: the base-10 digits of a natural number, most
significant first, as JavaScript's `BigInt.prototype.toString` produces for
non-negative values. -/
def digitsF : Nat → Nat → List Char
  | 0, _ => []
  | fuel + 1, n =>
      if n < 10 then [Nat.digitChar n]
      else digitsF fuel (n / 10) ++ [Nat.digitChar (n % 10)]

/-- `n + 1` steps of fuel always suffice. -/
def digits (n : Nat) : List Char := digitsF (n + 1) n

/-- JavaScript `BigInt.prototype.toString` for arbitrary sign. -/
def jsIntToString (n : Int) : List Char :=
  if n < 0 then '-' :: digits n.natAbs else digits n.natAbs

/-- A fixed-width digit string: exactly `k` base-10 digits of `m` (that is, of
`m mod 10^k`), zero-padded on the left. -/
def padDigits : Nat → Nat → List Char
  | 0, _ => []
  | k + 1, m => padDigits k (m / 10) ++ [Nat.digitChar (m % 10)]

namespace BigNum

/-- The failure modes of the arithmetic operations: the
`throw new Error("Division by zero")` in `div`, the RangeError JavaScript
raises for `BigInt(10) ** BigInt(negative)`, and the
`throw new Error("pow: exponent must be integer")` in `pow`. -/
inductive ArithErr where
  | divisionByZero
  | rangeError
  | invalidExponent
  deriving DecidableEq, Repr

/-- The computation `div` performs once both error checks have passed and the
guard scaling is legal (`scale = precision + 5 ≥ 0`). `BigInt`
division/remainder truncate towards zero (`Int.tdiv`/`Int.tmod`);
`quotient.toString().length` counts a `-` sign, as in JavaScript. -/
def divCore (a b : BigNum) (precision : Int) : BigNum :=
  let scale := precision + 5
  let scalePow : Int := 10 ^ scale.toNat
  let numerator := a.coefficient * scalePow
  let quotient := numerator.tdiv b.coefficient
  let exponent := a.exponent - b.exponent - scale
  let sign := a.sign * b.sign
  let totalDigits : Int := (jsIntToString quotient).length
  if totalDigits > precision then
    let drop := totalDigits - precision
    let divisor : Int := 10 ^ drop.toNat
    let remainder := quotient.tmod divisor
    let q0 := quotient.tdiv divisor
    let q := if remainder * 2 ≥ divisor then q0 + 1 else q0
    mkBigNum q (exponent + drop) sign
  else mkBigNum quotient exponent sign

/-- `div(other, precision)` (default precision 40): zero divisor fails, zero
dividend short-circuits to canonical zero, and a negative
`scale = precision + 5` makes `BigInt(10) ** BigInt(scale)` raise a
RangeError before anything else runs. -/
def div (a b : BigNum) (precision : Int) : Except ArithErr BigNum :=
  if b.coefficient = 0 then .error .divisionByZero
  else if a.coefficient = 0 then .ok ZERO
  else if precision + 5 < 0 then .error .rangeError
  else .ok (divCore a b precision)

/-- The square-and-multiply loop of `pow`, with explicit fuel. JavaScript's
`exp & 1` and `exp >>= 1` coerce through ToInt32: the parity test is
`toInt32 exp % 2` and the shift is the floor division `toInt32 exp / 2`. -/
def powLoopF : Nat → BigNum → BigNum → Int → BigNum
  | 0, res, _, _ => res
  | fuel + 1, res, base, exp =>
      if 0 < exp then
        powLoopF fuel (if toInt32 exp % 2 = 1 then mul res base else res)
          (mul base base) (toInt32 exp / 2)
      else res

/-- `exp.toNat + 1` steps of fuel always reach the loop's exit. -/
def powLoop (res base : BigNum) (exp : Int) : BigNum :=
  powLoopF (exp.toNat + 1) res base exp

/-- `pow(n, precision)` (default precision 40). The exponent is a JavaScript number, modelled as
a rational; `Number.isInteger` is `Rat.isInt`. A negative integer exponent
computes the positive power and divides one by it with the caller's
precision. -/
def pow (a : BigNum) (n : ℚ) (precision : Int) : Except ArithErr BigNum :=
  if ¬n.isInt then .error .invalidExponent
  else if n = 0 then .ok (mkBigNum 1 0 1)
  else if 0 < n then
    .ok (powLoop (mkBigNum 1 0 1) (mkBigNum a.coefficient a.exponent a.sign) n.num)
  else
    let positive := powLoop (mkBigNum 1 0 1)
      (mkBigNum a.coefficient a.exponent a.sign) (-n.num)
    div (mkBigNum 1 0 1) positive precision

end BigNum

/-! ## Parsing (`BigNum.from` on strings) -/

/-- The two parse failures of `BigNum.from` on strings:
`"Cannot parse empty string"` and `"Invalid numeric string"`. -/
inductive ParseErr where
  | emptyInput
  | invalidFormat
  deriving DecidableEq, Repr

/-- The whitespace characters `String.prototype.trim` removes (the ASCII ones
plus no-break space and the BOM; the exotic Unicode space separators are
outside the character sets any claim touches). -/
def jsWhitespace (c : Char) : Bool :=
  c == ' ' || c == '\t' || c == '\n' || c == '\r' || c == '\x0b' || c == '\x0c'
    || c == '\u00A0' || c == '\uFEFF'

/-- `String.prototype.trim`. -/
def jsTrim (l : List Char) : List Char :=
  ((l.dropWhile jsWhitespace).reverse.dropWhile jsWhitespace).reverse

/-- Split off the longest leading run of ASCII digits (what a greedy `\d+` or
`\d*` consumes). -/
def spanDigits : List Char → List Char × List Char
  | [] => ([], [])
  | c :: cs =>
      if c.isDigit then
        let p := spanDigits cs
        (c :: p.1, p.2)
      else ([], c :: cs)

/-- An optional leading `+` or `-` (the `([+-])?` group). -/
def parseSignChar : List Char → Option Char × List Char
  | [] => (none, [])
  | c :: rest =>
      if c = '+' then (some '+', rest)
      else if c = '-' then (some '-', rest)
      else (none, c :: rest)

/-- The number body `((?:\d+)(?:\.\d*)?|\.\d+)`: either digits optionally
followed by a point and further optional digits, or a point followed by
digits. Returns the matched characters (capture group 2) and the rest. The
regex is anchored and the alternatives start with distinct characters, so this
deterministic reading is exactly the regex's backtracking behaviour. -/
def parseCore : List Char → Option (List Char × List Char)
  | [] => none
  | c :: rest =>
      if c = '.' then
        let p := spanDigits rest
        if p.1 = [] then none else some ('.' :: p.1, p.2)
      else
        let p := spanDigits (c :: rest)
        if p.1 = [] then none
        else if p.2.head? = some '.' then
          let q := spanDigits p.2.tail
          some (p.1 ++ '.' :: q.1, q.2)
        else some (p.1, p.2)

/-- The decimal value of a digit string, as `BigInt(...)` and
`parseInt(..., 10)` compute it for pure digit strings. -/
def digitsToNat (l : List Char) : Nat :=
  l.foldl (fun n c => 10 * n + (c.toNat - 48)) 0

/-- The optional exponent `(?:[eE]([+-]?\d+))?$`, anchored at the end of the
string: either nothing remains, or a marker, an optional sign and at least one
digit reaching the end. Returns `parseInt(m[3], 10)` when the group matched. -/
def parseExpPart : List Char → Option (Option Int)
  | [] => some none
  | c :: rest =>
      if c = 'e' ∨ c = 'E' then
        let s2 := parseSignChar rest
        let p := spanDigits s2.2
        if p.1 = [] ∨ p.2 ≠ [] then none
        else some (some ((if s2.1 = some '-' then -1 else 1) * (digitsToNat p.1 : Int)))
      else none

/-- The anchored match
`s.match(/^([+-])?((?:\d+)(?:\.\d*)?|\.\d+)(?:[eE]([+-]?\d+))?$/)`:
the sign group, the number-body group and the exponent value, or `none`. -/
def jsMatch (l : List Char) : Option (Option Char × List Char × Option Int) :=
  let s := parseSignChar l
  match parseCore s.2 with
  | none => none
  | some (m2, l2) =>
      match parseExpPart l2 with
      | none => none
      | some m3 => some (s.1, m2, m3)

/-! ### The grammar the spec states

These definitions follow the spec's words, not the code: "optional leading
`+`/`-`, then either `digits`, `digits.digits`, or `.digits` (at least one
digit required on one side of the point), followed by an optional exponent
marker (`e`/`E`, optional sign, digits)". `MatchesStrict` is that grammar
verbatim; `MatchesAmended` additionally allows `digits.` — digits, a point
and *no* digits after it — which is what the regex's `\d+(\.\d*)?`
alternative accepts. -/

/-- A nonempty run of ASCII digits. -/
def IsDigits (l : List Char) : Prop := l ≠ [] ∧ ∀ c ∈ l, c.isDigit

/-- An optional sign: nothing, `+`, or `-`. -/
def SignOpt (l : List Char) : Prop := l = [] ∨ l = ['+'] ∨ l = ['-']

/-- The spec's three number-body alternatives:
`digits`, `digits.digits`, `.digits`. -/
def CoreStrict (l : List Char) : Prop :=
  IsDigits l ∨ (∃ a b, l = a ++ '.' :: b ∧ IsDigits a ∧ IsDigits b) ∨
    (∃ b, l = '.' :: b ∧ IsDigits b)

/-- The number bodies the code accepts: as `CoreStrict`, but the digits after
the point may be absent when digits precede it. -/
def CoreAmended (l : List Char) : Prop :=
  IsDigits l ∨ (∃ a b, l = a ++ '.' :: b ∧ IsDigits a ∧ ∀ c ∈ b, c.isDigit) ∨
    (∃ b, l = '.' :: b ∧ IsDigits b)

/-- The optional exponent part: empty, or a marker `e`/`E`, an optional sign
and at least one digit, reaching the end. -/
def ExpOpt (l : List Char) : Prop :=
  l = [] ∨ ∃ m sg ds, l = m :: (sg ++ ds) ∧ (m = 'e' ∨ m = 'E') ∧
    SignOpt sg ∧ IsDigits ds

/-- The spec's grammar, as stated. -/
def MatchesStrict (l : List Char) : Prop :=
  ∃ sg core ex, l = sg ++ core ++ ex ∧ SignOpt sg ∧ CoreStrict core ∧ ExpOpt ex

/-- The grammar with the `digits.` bodies the regex also accepts. -/
def MatchesAmended (l : List Char) : Prop :=
  ∃ sg core ex, l = sg ++ core ++ ex ∧ SignOpt sg ∧ CoreAmended core ∧ ExpOpt ex

namespace BigNum

/-- What `BigNum.from` builds from the three regex groups once the match has
succeeded: strip the decimal point, counting the digits after it into the
exponent, and hand the raw triple to the constructor. -/
def fromParts (m1 : Option Char) (m2 : List Char) (m3 : Option Int) : BigNum :=
  let sign : Int := if m1 = some '-' then -1 else 1
  let expPart : Int := match m3 with | none => 0 | some v => v
  if '.' ∈ m2 then
    let idx := m2.findIdx (fun c => c == '.')
    let digitsAfter : Int := (m2.length : Int) - idx - 1
    let num := m2.take idx ++ m2.drop (idx + 1)
    let coeff : Int := if num = [] then 0 else (digitsToNat num : Int)
    mkBigNum coeff (expPart - digitsAfter) sign
  else mkBigNum (digitsToNat m2) expPart sign

/-- `BigNum.from` restricted to string input: trim, reject the empty string,
match the regex, and build the value from the captured groups. -/
def fromString (x : String) : Except ParseErr BigNum :=
  if jsTrim x.data = [] then .error .emptyInput
  else
    match jsMatch (jsTrim x.data) with
    | none => .error .invalidFormat
    | some (m1, m2, m3) => .ok (fromParts m1 m2 m3)

/-! ## Formatting -/

/-- `String.prototype.slice(0, k)` for a possibly negative JavaScript end
index. -/
def jsSliceTo (l : List Char) (k : Int) : List Char :=
  if k < 0 then l.take (l.length - (-k).toNat) else l.take k.toNat

/-- `String.prototype.slice(k)` for a possibly negative JavaScript start
index. -/
def jsSliceFrom (l : List Char) (k : Int) : List Char :=
  if k < 0 then l.drop (l.length - (-k).toNat) else l.drop k.toNat

/-- `rest[0] >= '5'` — `false` on the empty string, where `rest[0]` is
`undefined`. -/
def headGe5 : List Char → Bool
  | [] => false
  | c :: _ => decide ('5' ≤ c)

/-- `toString(significant)` (default 20): normalized scientific notation. -/
def toString (x : BigNum) (significant : Int) : String :=
  if x.coefficient = 0 then "0"
  else
    let coeffStr := jsIntToString x.coefficient
    let totalDigits : Int := coeffStr.length
    let exponent := x.exponent + (totalDigits - 1)
    let pre : List Char := if x.sign < 0 then ['-'] else []
    if totalDigits ≤ significant then
      let mantissa := coeffStr.take 1 ++
        (if 1 < totalDigits then '.' :: coeffStr.drop 1 else [])
      ⟨pre ++ mantissa ++ 'e' :: (if 0 ≤ exponent then ['+'] else []) ++
        jsIntToString exponent⟩
    else
      let left := jsSliceTo coeffStr significant
      let rest := jsSliceFrom coeffStr significant
      let r0 : Int := if left = [] then 0 else (digitsToNat left : Int)
      let rounded : Int := if headGe5 rest then r0 + 1 else r0
      let roundedStr := jsIntToString rounded
      let mantissa := roundedStr.take 1 ++
        (if 1 < roundedStr.length then '.' :: roundedStr.drop 1 else [])
      if significant < (roundedStr.length : Int) then
        let adjExp := exponent + 1
        ⟨pre ++ mantissa ++ 'e' :: (if 0 ≤ adjExp then ['+'] else []) ++
          jsIntToString adjExp⟩
      else
        ⟨pre ++ mantissa ++ 'e' :: (if 0 ≤ exponent then ['+'] else []) ++
          jsIntToString exponent⟩

/-- `toFixed(decimals)` (default 20), on character lists. -/
def toFixedChars (x : BigNum) (decimals : Nat) : List Char :=
  if x.coefficient = 0 then '0' :: '.' :: List.replicate decimals '0'
  else
    let coeffStr := jsIntToString x.coefficient
    let pre : List Char := if x.sign < 0 then ['-'] else []
    let shift := x.exponent
    if 0 ≤ shift then
      pre ++ coeffStr ++ List.replicate shift.toNat '0' ++ '.' ::
        List.replicate decimals '0'
    else
      let absShift := (-shift).toNat
      if absShift < coeffStr.length then
        let idx := coeffStr.length - absShift
        let intPart := coeffStr.take idx
        let fracPart := (coeffStr.drop idx ++
          List.replicate (decimals - (coeffStr.length - idx)) '0').take decimals
        pre ++ intPart ++ '.' :: fracPart
      else
        let zeros := List.replicate (absShift - coeffStr.length) '0'
        let fracPart := zeros ++ coeffStr ++
          List.replicate (decimals - (zeros.length + coeffStr.length)) '0'
        pre ++ '0' :: '.' :: fracPart.take decimals

/-- `toFixed(decimals)` as a `String`. -/
def toFixed (x : BigNum) (decimals : Nat) : String := ⟨toFixedChars x decimals⟩

/-! ### The fixed-point form the spec describes

The spec says `toFixed` "renders the full integer and fractional parts by
shifting the coefficient's implied decimal point by `exponent` positions,
padding with zeros on either side as needed, and truncating (not rounding)
the fractional part to the requested digit count". The definitions below
state that mathematically: the magnitude `|x| · 10^d` truncated to an
integer, whose high digits are the exact integer part and whose `d` low
digits are the truncated fractional expansion. -/

/-- `⌊|x| · 10^d⌋` for a non-negative coefficient: the exact fixed-point
expansion of the magnitude, truncated after `d` fractional digits. -/
def scaledTrunc (x : BigNum) (d : Nat) : Nat :=
  if 0 ≤ x.exponent + (d : Int) then
    x.coefficient.toNat * 10 ^ (x.exponent + (d : Int)).toNat
  else x.coefficient.toNat / 10 ^ (-(x.exponent + (d : Int))).toNat

/-- The spec's fixed-point rendering: optional sign, the exact integer part,
a point, and exactly `d` truncated fractional digits. -/
def toFixedSpec (x : BigNum) (d : Nat) : String :=
  ⟨(if x.sign < 0 then ['-'] else []) ++
    digits (scaledTrunc x d / 10 ^ d) ++ '.' ::
      padDigits d (scaledTrunc x d % 10 ^ d)⟩

end BigNum

namespace BigNum

/-! ## Basic facts about the constructor -/

theorem stripZerosF_spec : ∀ (fuel : Nat) (c e : Int), c ≠ 0 →
    c.natAbs ≤ fuel →
    (stripZerosF fuel c e).1 ≠ 0 ∧ ¬((stripZerosF fuel c e).1 % 10 = 0) ∧
      ((stripZerosF fuel c e).1 < 0 ↔ c < 0) := by
  intro fuel
  induction fuel with
  | zero => intro c e hc hle; exfalso; omega
  | succ n ih =>
    intro c e hc hle
    by_cases h : c ≠ 0 ∧ c % 10 = 0
    · have hdvd : (10 : Int) ∣ c := Int.dvd_of_emod_eq_zero h.2
      obtain ⟨k, hk⟩ := hdvd
      have hk10 : c / 10 = k := by omega
      have hkne : k ≠ 0 := by intro h0; apply hc; omega
      have habs : k.natAbs ≤ n := by
        have h1 : c.natAbs = 10 * k.natAbs := by
          subst hk; simp [Int.natAbs_mul]
        omega
      have hrec := ih (c / 10) (e + 1) (by omega) (by omega)
      rw [stripZerosF, if_pos h]
      refine ⟨hrec.1, hrec.2.1, ?_⟩
      rw [hrec.2.2]; omega
    · rw [stripZerosF, if_neg h]
      refine ⟨hc, ?_, Iff.rfl⟩
      intro h10; exact h ⟨hc, h10⟩

theorem stripZeros_spec (c e : Int) (hc : c ≠ 0) :
    (stripZeros c e).1 ≠ 0 ∧ ¬((stripZeros c e).1 % 10 = 0) ∧
      ((stripZeros c e).1 < 0 ↔ c < 0) :=
  stripZerosF_spec c.natAbs c e hc le_rfl

/-- If the coefficient is already not divisible by ten, the stripping loop
exits immediately. -/
theorem stripZeros_eq_self (c e : Int) (h : ¬(10 ∣ c)) :
    stripZeros c e = (c, e) := by
  have hc : c ≠ 0 := by rintro rfl; exact h ⟨0, by ring⟩
  have h1 : 1 ≤ c.natAbs := by omega
  unfold stripZeros
  obtain ⟨n, hn⟩ : ∃ n, c.natAbs = n + 1 := ⟨c.natAbs - 1, by omega⟩
  rw [hn]
  have hmod : ¬(c % 10 = 0) := fun hm => h (Int.dvd_of_emod_eq_zero hm)
  simp [stripZerosF, hc, hmod]

/-- Every object the constructor returns is well-formed. -/
theorem mkBigNum_wf (c e s : Int) : WF (mkBigNum c e s) := by
  unfold mkBigNum
  by_cases hc : c = 0
  · simp only [hc, if_true]
    exact ⟨⟨fun _ => ⟨rfl, rfl⟩, fun h => absurd rfl h⟩, Or.inl rfl⟩
  · simp only [hc, if_false]
    have hs := stripZeros_spec c (toInt32 e) hc
    set p := stripZeros c (toInt32 e) with hp
    have hndvd : ¬(10 ∣ p.1) := fun hd => hs.2.1 (Int.emod_eq_zero_of_dvd hd)
    have hne := hs.1
    by_cases hneg : p.1 < 0
    · simp only [hneg, if_true]
      refine ⟨⟨fun h0 => ?_, fun _ => ⟨?_, ?_⟩⟩, Or.inr rfl⟩
      · exact absurd (show p.1 = 0 by simpa using h0) hne
      · show (0 : Int) < -p.1; omega
      · show ¬((10 : Int) ∣ -p.1)
        intro hdvd; exact hndvd (Int.dvd_neg.mp hdvd)
    · simp only [hneg, if_false]
      constructor
      · refine ⟨fun h0 => absurd h0 hne, fun _ => ⟨?_, hndvd⟩⟩
        show (0 : Int) < p.1; omega
      · by_cases hs1 : s = -1 <;> simp [hs1]

theorem mkBigNum_canonical (c e s : Int) : IsCanonical (mkBigNum c e s) :=
  (mkBigNum_wf c e s).1

theorem ZERO_eq : ZERO = ⟨0, 0, 1⟩ := rfl

/-- Re-feeding a well-formed instance whose exponent lies in the 32-bit range
through the constructor reproduces it (the `new BigNum(x.coefficient,
x.exponent, x.sign)` copies scattered through the source). -/
theorem mkBigNum_id (x : BigNum) (hx : WF x)
    (he : -2 ^ 31 ≤ x.exponent ∧ x.exponent < 2 ^ 31) :
    mkBigNum x.coefficient x.exponent x.sign = x := by
  obtain ⟨⟨hzero, hnz⟩, hsign⟩ := hx
  by_cases hc : x.coefficient = 0
  · obtain ⟨he0, hs0⟩ := hzero hc
    unfold mkBigNum
    simp only [hc, if_true]
    cases x
    simp_all
  · obtain ⟨hpos, hdvd⟩ := hnz hc
    unfold mkBigNum
    simp only [hc, if_false]
    have ht : toInt32 x.exponent = x.exponent := by unfold toInt32; omega
    rw [ht, stripZeros_eq_self _ _ hdvd]
    have hnneg : ¬(x.coefficient < 0) := by omega
    simp only [hnneg, if_false]
    rcases hsign with h1 | h1 <;> cases x <;> simp_all


end BigNum

theorem digitsF_congr : ∀ (f1 f2 n : Nat), n < f1 → n < f2 →
    digitsF f1 n = digitsF f2 n := by
  intro f1
  induction f1 with
  | zero => intro f2 n h1 _; exact absurd h1 (by omega)
  | succ g ih =>
    intro f2 n h1 h2
    obtain ⟨g2, rfl⟩ : ∃ g2, f2 = g2 + 1 := ⟨f2 - 1, by omega⟩
    by_cases hn : n < 10
    · rw [digitsF, digitsF, if_pos hn, if_pos hn]
    · rw [digitsF, digitsF, if_neg hn, if_neg hn, ih g2 (n / 10) (by omega) (by omega)]

/-- The recursion `digits` satisfies, with the fuel discharged. -/
theorem digits_def (n : Nat) :
    digits n = if n < 10 then [Nat.digitChar n]
      else digits (n / 10) ++ [Nat.digitChar (n % 10)] := by
  unfold digits
  rw [digitsF]
  by_cases hn : n < 10
  · rw [if_pos hn, if_pos hn]
  · rw [if_neg hn, if_neg hn,
      digitsF_congr n (n / 10 + 1) (n / 10) (by omega) (by omega)]

/-! ## Digit-string arithmetic -/

theorem digits_zero : digits 0 = ['0'] := by decide

theorem digits_ne_nil (n : Nat) : digits n ≠ [] := by
  rw [digits_def]
  split
  · simp
  · simp

theorem digits_length_pos (n : Nat) : 0 < (digits n).length :=
  List.length_pos.mpr (digits_ne_nil n)

/-- Appending a zero digit is multiplication by ten. -/
theorem digits_mul_ten (n : Nat) (hn : 0 < n) :
    digits (n * 10) = digits n ++ ['0'] := by
  rw [digits_def (n * 10), if_neg (by omega)]
  rw [Nat.mul_div_cancel n (by norm_num), Nat.mul_mod_left]
  rfl

/-- Appending `k` zero digits is multiplication by `10^k`. -/
theorem digits_mul_pow_ten (n : Nat) (hn : 0 < n) :
    ∀ k, digits (n * 10 ^ k) = digits n ++ List.replicate k '0' := by
  intro k
  induction k with
  | zero => simp
  | succ j ih =>
    have h1 : n * 10 ^ (j + 1) = n * 10 ^ j * 10 := by ring
    rw [h1, digits_mul_ten _ (by positivity), ih, List.replicate_succ',
      List.append_assoc]

theorem padDigits_length (k m : Nat) : (padDigits k m).length = k := by
  induction k generalizing m with
  | zero => rfl
  | succ j ih => simp [padDigits, ih]

theorem padDigits_zero (k : Nat) : padDigits k 0 = List.replicate k '0' := by
  induction k with
  | zero => rfl
  | succ j ih =>
    show padDigits j (0 / 10) ++ [Nat.digitChar (0 % 10)] = _
    rw [Nat.zero_div, ih, List.replicate_succ']
    rfl

/-- `padDigits` only looks at the argument modulo `10^k`. -/
theorem padDigits_mod (k m : Nat) : padDigits k (m % 10 ^ k) = padDigits k m := by
  induction k generalizing m with
  | zero => rfl
  | succ j ih =>
    show padDigits j (m % 10 ^ (j + 1) / 10) ++
      [Nat.digitChar (m % 10 ^ (j + 1) % 10)] = _
    have h1 : m % 10 ^ (j + 1) / 10 = m / 10 % 10 ^ j := by
      rw [pow_succ, Nat.mul_comm, Nat.mod_mul_right_div_self]
    have h2 : m % 10 ^ (j + 1) % 10 = m % 10 :=
      Nat.mod_mod_of_dvd m (dvd_pow_self 10 (by omega))
    rw [h1, h2, ih]
    rfl

/-- Splitting a digit string at position `k` from the right: the high digits
are the digits of `n / 10^k` and the `k` low digits are `n mod 10^k`,
zero-padded. -/
theorem digits_split (k : Nat) : ∀ n : Nat, 10 ^ k ≤ n →
    digits n = digits (n / 10 ^ k) ++ padDigits k (n % 10 ^ k) := by
  induction k with
  | zero => intro n _; simp [padDigits]
  | succ j ih =>
    intro n hn
    have h10 : (10 : Nat) ≤ n := le_trans (by
      calc (10 : Nat) = 10 ^ 1 := (pow_one 10).symm
      _ ≤ 10 ^ (j + 1) := Nat.pow_le_pow_right (by norm_num) (by omega)) hn
    have hdiv : 10 ^ j ≤ n / 10 := by
      rw [Nat.le_div_iff_mul_le (by norm_num)]
      calc 10 ^ j * 10 = 10 ^ (j + 1) := by ring
      _ ≤ n := hn
    rw [digits_def n, if_neg (by omega), ih (n / 10) hdiv]
    have h1 : n / 10 / 10 ^ j = n / 10 ^ (j + 1) := by
      rw [Nat.div_div_eq_div_mul, pow_succ, Nat.mul_comm]
    have h2 : padDigits (j + 1) (n % 10 ^ (j + 1)) =
        padDigits j (n / 10 % 10 ^ j) ++ [Nat.digitChar (n % 10)] := by
      show padDigits j (n % 10 ^ (j + 1) / 10) ++
        [Nat.digitChar (n % 10 ^ (j + 1) % 10)] = _
      rw [show n % 10 ^ (j + 1) / 10 = n / 10 % 10 ^ j by
          rw [pow_succ, Nat.mul_comm, Nat.mod_mul_right_div_self],
        Nat.mod_mod_of_dvd n (dvd_pow_self 10 (by omega))]
    rw [h1, h2, List.append_assoc]

/-- Scaling by `10^j` shifts a fixed-width digit window left, filling with
zeros. -/
theorem padDigits_mul_pow (j : Nat) : ∀ (d m : Nat), j ≤ d →
    padDigits d (m * 10 ^ j) = padDigits (d - j) m ++ List.replicate j '0' := by
  induction j with
  | zero => intro d m _; simp
  | succ i ih =>
    intro d m hle
    obtain ⟨d', rfl⟩ : ∃ d', d = d' + 1 := ⟨d - 1, by omega⟩
    show padDigits d' (m * 10 ^ (i + 1) / 10) ++
      [Nat.digitChar (m * 10 ^ (i + 1) % 10)] = _
    have h1 : m * 10 ^ (i + 1) / 10 = m * 10 ^ i := by
      rw [show m * 10 ^ (i + 1) = m * 10 ^ i * 10 by ring,
        Nat.mul_div_cancel _ (by norm_num)]
    have h2 : m * 10 ^ (i + 1) % 10 = 0 := by
      rw [show m * 10 ^ (i + 1) = m * 10 ^ i * 10 by ring, Nat.mul_mod_left]
    rw [h1, h2, ih d' m (by omega), show d' + 1 - (i + 1) = d' - i by omega,
      List.replicate_succ', List.append_assoc]
    rfl

/-- Truncating a fixed-width digit window keeps its high digits. -/
theorem padDigits_take (A : Nat) : ∀ (d m : Nat), d ≤ A →
    (padDigits A m).take d = padDigits d (m / 10 ^ (A - d)) := by
  induction A with
  | zero =>
    intro d m hle
    interval_cases d
    rfl
  | succ j ih =>
    intro d m hle
    by_cases hd : d = j + 1
    · subst hd
      rw [List.take_of_length_le (by rw [padDigits_length])]
      simp
    · have hdj : d ≤ j := by omega
      show (padDigits j (m / 10) ++ [Nat.digitChar (m % 10)]).take d = _
      rw [List.take_append_of_le_length (by rw [padDigits_length]; omega),
        ih d (m / 10) hdj, Nat.div_div_eq_div_mul,
        show 10 * 10 ^ (j - d) = 10 ^ (j + 1 - d) by
          rw [← pow_succ']; congr 1; omega]

/-- Digit-count bounds: a number is below `10^(number of its digits)`. -/
theorem digits_lt (n : Nat) : n < 10 ^ (digits n).length := by
  induction n using Nat.strong_induction_on with
  | _ n ih =>
    rw [digits_def]
    split
    · simpa using by omega
    · rename_i hn
      have h1 := ih (n / 10) (by omega)
      simp only [List.length_append, List.length_cons, List.length_nil]
      calc n < (n / 10 + 1) * 10 := by omega
      _ ≤ 10 ^ (digits (n / 10)).length * 10 := by
          have : n / 10 + 1 ≤ 10 ^ (digits (n / 10)).length := h1
          exact Nat.mul_le_mul_right 10 this
      _ = 10 ^ ((digits (n / 10)).length + 0 + 1) := by ring

/-- Digit-count bounds: a positive number reaches `10^(digits - 1)`. -/
theorem digits_ge (n : Nat) (hn : 0 < n) :
    10 ^ ((digits n).length - 1) ≤ n := by
  induction n using Nat.strong_induction_on with
  | _ n ih =>
    rw [digits_def]
    split
    · simpa using hn
    · rename_i hn10
      have hpos : 0 < n / 10 := by omega
      have h1 := ih (n / 10) (by omega) hpos
      simp only [List.length_append, List.length_cons, List.length_nil]
      have h2 : (digits (n / 10)).length - 1 + 1 = (digits (n / 10)).length :=
        Nat.succ_pred_eq_of_pos (digits_length_pos _)
      calc 10 ^ ((digits (n / 10)).length + 0 + 1 - 1)
          = 10 ^ ((digits (n / 10)).length - 1) * 10 := by
            rw [← pow_succ]; congr 1; omega
      _ ≤ n / 10 * 10 := Nat.mul_le_mul_right 10 h1
      _ ≤ n := by omega

/-- A number with at most `k` digits, zero-padded to width `k`. -/
theorem padDigits_eq_pad (k : Nat) : ∀ m : Nat, 0 < m → m < 10 ^ k →
    padDigits k m = List.replicate (k - (digits m).length) '0' ++ digits m := by
  induction k with
  | zero => intro m h1 h2; omega
  | succ j ih =>
    intro m h1 h2
    by_cases hm : m < 10
    · have hd : digits m = [Nat.digitChar m] := by rw [digits_def, if_pos hm]
      show padDigits j (m / 10) ++ [Nat.digitChar (m % 10)] = _
      rw [Nat.div_eq_of_lt hm, Nat.mod_eq_of_lt hm, padDigits_zero, hd]
      simp
    · have hdiv : 0 < m / 10 := by omega
      have hlt : m / 10 < 10 ^ j := by
        rw [Nat.div_lt_iff_lt_mul (by norm_num)]
        calc m < 10 ^ (j + 1) := h2
        _ = 10 ^ j * 10 := by ring
      have hd : digits m = digits (m / 10) ++ [Nat.digitChar (m % 10)] := by
        rw [digits_def m, if_neg hm]
      show padDigits j (m / 10) ++ [Nat.digitChar (m % 10)] = _
      rw [ih (m / 10) hdiv hlt, hd]
      simp only [List.length_append, List.length_cons, List.length_nil]
      rw [show j + 1 - ((digits (m / 10)).length + 0 + 1) =
        j - (digits (m / 10)).length by omega, List.append_assoc]

/-! ## `toFixed` renders the exact truncated fixed-point expansion -/

namespace BigNum

theorem scaledTrunc_nonneg (c e s : Int) (d : Nat) (he : 0 ≤ e) :
    scaledTrunc ⟨c, e, s⟩ d = c.toNat * 10 ^ (e.toNat + d) := by
  unfold scaledTrunc
  dsimp only
  rw [if_pos (by omega : (0 : Int) ≤ e + (d : Int))]
  congr 2
  omega

theorem scaledTrunc_neg (c e s : Int) (d : Nat) (he : e < 0) :
    scaledTrunc ⟨c, e, s⟩ d =
      if (-e).toNat ≤ d then c.toNat * 10 ^ (d - (-e).toNat)
      else c.toNat / 10 ^ ((-e).toNat - d) := by
  unfold scaledTrunc
  dsimp only
  by_cases hAd : (-e).toNat ≤ d
  · rw [if_pos (by omega : (0 : Int) ≤ e + (d : Int)), if_pos hAd]
    congr 2
    omega
  · rw [if_neg (by omega), if_neg hAd]
    congr 2
    omega

/-- The nonnegative-shift branch: the whole coefficient is integer part. -/
theorem fixedAgree_shift (cN et d : Nat) (h : 0 < cN) :
    digits cN ++ List.replicate et '0' ++ '.' :: List.replicate d '0' =
      digits (cN * 10 ^ (et + d) / 10 ^ d) ++ '.' ::
        padDigits d (cN * 10 ^ (et + d) % 10 ^ d) := by
  have h1 : cN * 10 ^ (et + d) / 10 ^ d = cN * 10 ^ et := by
    rw [pow_add, ← mul_assoc, Nat.mul_div_cancel _ (by positivity)]
  have h2 : cN * 10 ^ (et + d) % 10 ^ d = 0 := by
    rw [pow_add, ← mul_assoc, Nat.mul_mod_left]
  rw [h1, h2, padDigits_zero, digits_mul_pow_ten _ h]

/-- The interior-shift branch: the point splits the digit string. -/
theorem fixedAgree_mid (cN A d : Nat) (hpos : 0 < cN)
    (hB : A < (digits cN).length) :
    (digits cN).take ((digits cN).length - A) ++ '.' ::
        ((digits cN).drop ((digits cN).length - A) ++
          List.replicate (d - A) '0').take d =
      digits ((if A ≤ d then cN * 10 ^ (d - A) else cN / 10 ^ (A - d)) / 10 ^ d)
        ++ '.' :: padDigits d
          ((if A ≤ d then cN * 10 ^ (d - A) else cN / 10 ^ (A - d)) % 10 ^ d) := by
  have hge : 10 ^ A ≤ cN :=
    le_trans (Nat.pow_le_pow_right (by norm_num)
      (by omega : A ≤ (digits cN).length - 1)) (digits_ge cN hpos)
  have hsplit := digits_split A cN hge
  have hlen : (digits cN).length = (digits (cN / 10 ^ A)).length + A := by
    rw [hsplit]
    simp [padDigits_length]
  have htake : (digits cN).take ((digits cN).length - A) =
      digits (cN / 10 ^ A) := by
    rw [show (digits cN).length - A = (digits (cN / 10 ^ A)).length by omega,
      hsplit]
    exact List.take_left _ _
  have hdrop : (digits cN).drop ((digits cN).length - A) =
      padDigits A (cN % 10 ^ A) := by
    rw [show (digits cN).length - A = (digits (cN / 10 ^ A)).length by omega,
      hsplit]
    exact List.drop_left _ _
  rw [htake, hdrop]
  by_cases hAd : A ≤ d
  · rw [if_pos hAd]
    have hpow : (10 : Nat) ^ d = 10 ^ A * 10 ^ (d - A) := by
      rw [← pow_add]; congr 1; omega
    have hIdiv : cN * 10 ^ (d - A) / 10 ^ d = cN / 10 ^ A := by
      rw [hpow, show cN * 10 ^ (d - A) = 10 ^ (d - A) * cN by ring,
        show (10 : Nat) ^ A * 10 ^ (d - A) = 10 ^ (d - A) * 10 ^ A by ring,
        Nat.mul_div_mul_left _ _ (by positivity)]
    have hFmod : cN * 10 ^ (d - A) % 10 ^ d = cN % 10 ^ A * 10 ^ (d - A) := by
      rw [hpow, Nat.mul_mod_mul_right]
    rw [hIdiv, hFmod,
      padDigits_mul_pow (d - A) d (cN % 10 ^ A) (by omega),
      show d - (d - A) = A by omega,
      List.take_of_length_le (by
        simp only [List.length_append, List.length_replicate, padDigits_length]
        omega)]
  · rw [if_neg hAd]
    have hpow : (10 : Nat) ^ A = 10 ^ (A - d) * 10 ^ d := by
      rw [← pow_add]; congr 1; omega
    have hIdiv : cN / 10 ^ (A - d) / 10 ^ d = cN / 10 ^ A := by
      rw [Nat.div_div_eq_div_mul, hpow]
    have hFmod : cN / 10 ^ (A - d) % 10 ^ d = cN % 10 ^ A / 10 ^ (A - d) := by
      rw [hpow, Nat.mod_mul_right_div_self]
    rw [hIdiv, hFmod, show d - A = 0 by omega]
    rw [show padDigits A (cN % 10 ^ A) ++ List.replicate 0 '0' =
      padDigits A (cN % 10 ^ A) by simp]
    rw [padDigits_take A d (cN % 10 ^ A) (by omega)]

/-- The deep-negative-shift branch: the point lands left of every digit. -/
theorem fixedAgree_small (cN A d : Nat) (hpos : 0 < cN)
    (hB : (digits cN).length ≤ A) :
    '0' :: '.' :: (List.replicate (A - (digits cN).length) '0' ++ digits cN ++
        List.replicate (d - A) '0').take d =
      digits ((if A ≤ d then cN * 10 ^ (d - A) else cN / 10 ^ (A - d)) / 10 ^ d)
        ++ '.' :: padDigits d
          ((if A ≤ d then cN * 10 ^ (d - A) else cN / 10 ^ (A - d)) % 10 ^ d) := by
  have hlt : cN < 10 ^ A :=
    lt_of_lt_of_le (digits_lt cN) (Nat.pow_le_pow_right (by norm_num) hB)
  by_cases hAd : A ≤ d
  · rw [if_pos hAd]
    have hN : cN * 10 ^ (d - A) < 10 ^ d := by
      calc cN * 10 ^ (d - A) < 10 ^ A * 10 ^ (d - A) :=
        (Nat.mul_lt_mul_right (by positivity)).mpr hlt
      _ = 10 ^ d := by rw [← pow_add]; congr 1; omega
    rw [Nat.div_eq_of_lt hN, Nat.mod_eq_of_lt hN, digits_zero]
    have hfrac : padDigits d (cN * 10 ^ (d - A)) =
        padDigits A cN ++ List.replicate (d - A) '0' := by
      rw [padDigits_mul_pow (d - A) d cN (by omega),
        show d - (d - A) = A by omega]
    rw [hfrac, padDigits_eq_pad A cN hpos hlt]
    rw [List.take_of_length_le (by
      simp only [List.length_append, List.length_replicate]
      omega)]
    simp [List.append_assoc]
  · rw [if_neg hAd]
    have hN : cN / 10 ^ (A - d) < 10 ^ d := by
      rw [Nat.div_lt_iff_lt_mul (by positivity), ← pow_add]
      calc cN < 10 ^ A := hlt
      _ ≤ 10 ^ (d + (A - d)) := Nat.pow_le_pow_right (by norm_num) (by omega)
    rw [Nat.div_eq_of_lt hN, Nat.mod_eq_of_lt hN, digits_zero]
    rw [show d - A = 0 by omega]
    rw [show List.replicate (A - (digits cN).length) '0' ++ digits cN ++
        List.replicate 0 '0' =
        List.replicate (A - (digits cN).length) '0' ++ digits cN by simp]
    rw [← padDigits_eq_pad A cN hpos hlt,
      padDigits_take A d cN (by omega)]
    rfl

/-- C6 refinement: on every well-formed value, `toFixed` produces exactly the
spec's truncated fixed-point rendering. -/
theorem toFixed_eq_spec (x : BigNum) (hx : WF x) (d : Nat) :
    toFixed x d = toFixedSpec x d := by
  obtain ⟨c, e, s⟩ := x
  obtain ⟨⟨hzero, hnz⟩, hsign⟩ := hx
  dsimp only at hzero hnz
  unfold toFixed toFixedSpec toFixedChars
  congr 1
  by_cases hc : c = 0
  · obtain ⟨he0, hs0⟩ := hzero hc
    subst hc; subst he0; subst hs0
    rw [if_pos rfl]
    have hN : scaledTrunc ⟨0, 0, 1⟩ d = 0 := by
      unfold scaledTrunc
      dsimp only
      rw [if_pos (by omega)]
      simp
    rw [hN, Nat.zero_div, Nat.zero_mod, digits_zero, padDigits_zero]
    simp
  · obtain ⟨hpos, _⟩ := hnz hc
    rw [if_neg hc]
    dsimp only
    have hcoeff : jsIntToString c = digits c.toNat := by
      unfold jsIntToString
      rw [if_neg (by omega), show c.natAbs = c.toNat by omega]
    have hcNpos : 0 < c.toNat := by omega
    rw [hcoeff]
    by_cases he : 0 ≤ e
    · rw [if_pos he, scaledTrunc_nonneg c e s d he]
      rw [show e.toNat + d = e.toNat + d from rfl]
      have := fixedAgree_shift c.toNat e.toNat d hcNpos
      simp only [List.append_assoc] at this ⊢
      rw [← this]
    · rw [if_neg he, scaledTrunc_neg c e s d (by omega)]
      set A := (-e).toNat with hA
      by_cases hB : A < (digits c.toNat).length
      · rw [if_pos hB]
        have := fixedAgree_mid c.toNat A d hcNpos hB
        rw [show d - ((digits c.toNat).length -
          ((digits c.toNat).length - A)) = d - A by omega]
        simp only [List.append_assoc] at this ⊢
        rw [← this]
      · rw [if_neg hB]
        have := fixedAgree_small c.toNat A d hcNpos (by omega)
        simp only [List.append_assoc, List.length_replicate] at this ⊢
        rw [show A - (digits c.toNat).length + (digits c.toNat).length = A by
          omega]
        rw [← this]

/-- C6: `toFixed` renders the exact fixed-point expansion of every
well-formed value — the integer part exactly, the fractional part truncated
(not rounded) to the requested digit count — and in particular
`parse("12345.6789").toFixed(6)` is `"12345.678900"` and zero renders as
`"0."` followed by the requested zeros. -/
theorem toFixed_exact_truncating :
    (∀ (x : BigNum), WF x → ∀ (d : Nat), toFixed x d = toFixedSpec x d) ∧
      fromString "12345.6789" = .ok ⟨123456789, -4, 1⟩ ∧
      toFixed ⟨123456789, -4, 1⟩ 6 = "12345.678900" ∧
      ∀ d : Nat, toFixed ZERO d = String.mk ('0' :: '.' :: List.replicate d '0') :=
  ⟨toFixed_eq_spec, by decide, by decide, fun d => rfl⟩

/-- Witness for `toFixed_exact_truncating` at the concrete value
`12345.6789`. -/
theorem toFixed_exact_truncating_witness :
    toFixed ⟨123456789, -4, 1⟩ 6 = toFixedSpec ⟨123456789, -4, 1⟩ 6 ∧
      toFixedSpec ⟨123456789, -4, 1⟩ 6 = "12345.678900" :=
  ⟨toFixed_exact_truncating.1 ⟨123456789, -4, 1⟩ (by decide) 6, by decide⟩

end BigNum

/-! ## ToInt32 arithmetic -/

theorem toInt32_congr (a b : Int) (h : (a - b) % 2 ^ 32 = 0) :
    toInt32 a = toInt32 b := by
  unfold toInt32; omega

theorem toInt32_id (a : Int) (h1 : -2 ^ 31 ≤ a) (h2 : a < 2 ^ 31) :
    toInt32 a = a := by
  unfold toInt32; omega

theorem toInt32_sub_self (a : Int) : (toInt32 a - a) % 2 ^ 32 = 0 := by
  unfold toInt32; omega

namespace BigNum

/-! ## Canonicity of every construction -/

theorem ZERO_canonical : IsCanonical ZERO := by decide

theorem add_canonical (a b : BigNum) : IsCanonical (add a b) := by
  unfold add
  dsimp only
  split
  · exact mkBigNum_canonical _ _ _
  · split
    · exact mkBigNum_canonical _ _ _
    · split
      · exact ZERO_canonical
      · exact mkBigNum_canonical _ _ _

theorem mul_canonical (a b : BigNum) : IsCanonical (mul a b) := by
  unfold mul
  split
  · exact ZERO_canonical
  · exact mkBigNum_canonical _ _ _

theorem sub_canonical (a b : BigNum) : IsCanonical (sub a b) :=
  add_canonical a (negate b)

theorem divCore_canonical (a b : BigNum) (p : Int) :
    IsCanonical (divCore a b p) := by
  unfold divCore
  dsimp only
  split
  · exact mkBigNum_canonical _ _ _
  · exact mkBigNum_canonical _ _ _

theorem div_ok_canonical (a b : BigNum) (p : Int) (x : BigNum)
    (h : div a b p = .ok x) : IsCanonical x := by
  unfold div at h
  split at h
  · cases h
  · split at h
    · cases h; exact ZERO_canonical
    · split at h
      · cases h
      · cases h; exact divCore_canonical a b p

theorem powLoopF_canonical (fuel : Nat) :
    ∀ (res base : BigNum) (exp : Int), IsCanonical res →
      IsCanonical (powLoopF fuel res base exp) := by
  induction fuel with
  | zero => intro res base exp h; exact h
  | succ n ih =>
    intro res base exp h
    rw [powLoopF]
    split
    · apply ih
      split
      · exact mul_canonical _ _
      · exact h
    · exact h

theorem pow_ok_canonical (a : BigNum) (n : ℚ) (p : Int) (x : BigNum)
    (h : pow a n p = .ok x) : IsCanonical x := by
  unfold pow at h
  split at h
  · cases h
  · split at h
    · cases h; exact mkBigNum_canonical _ _ _
    · split at h
      · cases h
        exact powLoopF_canonical _ _ _ _ (mkBigNum_canonical _ _ _)
      · exact div_ok_canonical _ _ _ _ h

theorem fromParts_canonical (m1 : Option Char) (m2 : List Char)
    (m3 : Option Int) : IsCanonical (fromParts m1 m2 m3) := by
  unfold fromParts
  dsimp only
  split
  · exact mkBigNum_canonical _ _ _
  · exact mkBigNum_canonical _ _ _

theorem fromString_ok_canonical (str : String) (x : BigNum)
    (h : fromString str = .ok x) : IsCanonical x := by
  unfold fromString at h
  split at h
  · cases h
  · split at h
    · cases h
    · cases h; exact fromParts_canonical _ _ _

/-- C3: the canonical-form invariants hold after every construction: a raw
triple fed to the constructor, the result of any arithmetic operation, and
every successfully parsed value. If the coefficient is `0` then the exponent
is `0` and the sign `+1`; otherwise the coefficient is positive and not
divisible by ten. -/
theorem constructions_canonical (c e s : Int) (a b x : BigNum) (str : String)
    (n : ℚ) (p : Int) :
    IsCanonical (mkBigNum c e s) ∧ IsCanonical (add a b) ∧
      IsCanonical (sub a b) ∧ IsCanonical (mul a b) ∧
      (fromString str = .ok x → IsCanonical x) ∧
      (div a b p = .ok x → IsCanonical x) ∧
      (pow a n p = .ok x → IsCanonical x) :=
  ⟨mkBigNum_canonical c e s, add_canonical a b, sub_canonical a b,
    mul_canonical a b, fromString_ok_canonical str x,
    div_ok_canonical a b p x, pow_ok_canonical a n p x⟩

/-- Witness for `constructions_canonical` at concrete inputs: the normalised
form of `new BigNum(-300, 5, 1)` is canonical, and the parse of `"0.500"`
yields a canonical value. -/
theorem constructions_canonical_witness :
    IsCanonical (mkBigNum (-300) 5 1) ∧ IsCanonical (mkBigNum 5 (-1) 1) := by
  have h1 := constructions_canonical (-300) 5 1 ZERO ZERO (mkBigNum 5 (-1) 1)
    "0.500" 0 40
  have h2 : fromString "0.500" = .ok (mkBigNum 5 (-1) 1) := by decide
  exact ⟨h1.1, h1.2.2.2.2.1 h2⟩

/-! ## The 32-bit exponent wrap (constructor `| 0`) -/

/-- C10 (amended): for a construction whose coefficient is nonzero and not
divisible by ten, the stored exponent is exactly the input exponent reduced
modulo `2^32` into `[-2^31, 2^31)`. -/
theorem exponent_wraps (c e s : Int) (hc : c ≠ 0) (hd : ¬(10 ∣ c)) :
    (mkBigNum c e s).exponent = toInt32 e ∧
      toInt32 e = (e + 2 ^ 31) % 2 ^ 32 - 2 ^ 31 ∧
      -2 ^ 31 ≤ toInt32 e ∧ toInt32 e < 2 ^ 31 ∧
      (toInt32 e - e) % 2 ^ 32 = 0 := by
  refine ⟨?_, rfl, by unfold toInt32; omega, by unfold toInt32; omega,
    toInt32_sub_self e⟩
  unfold mkBigNum
  rw [if_neg hc]
  dsimp only
  rw [stripZeros_eq_self _ _ hd]
  split <;> rfl

/-- Witness for `exponent_wraps`: constructing with exponent `2^31` stores
`-2^31`. -/
theorem exponent_wraps_witness : (mkBigNum 3 (2 ^ 31) 1).exponent = -2 ^ 31 := by
  rw [(exponent_wraps 3 (2 ^ 31) 1 (by decide) (by decide)).1]
  decide

/-- C10 counterexample to the unrestricted claim: with a zero coefficient the
stored exponent is forced to `0`, and with a coefficient divisible by ten the
trailing-zero stripping bumps the wrapped exponent — in both cases the stored
exponent differs from the input reduced modulo `2^32` into range, which here
is `toInt32 (2^31) = -2^31`. -/
theorem exponent_wraps_cex :
    (mkBigNum 0 (2 ^ 31) 1).exponent = 0 ∧
      (mkBigNum 10 (2 ^ 31) 1).exponent = -2 ^ 31 + 1 ∧
      toInt32 (2 ^ 31) = -2 ^ 31 := by decide

/-! ## Division error behaviour -/

/-- C4 (amended): `div` fails with the division-by-zero error exactly on a
zero divisor (for every dividend and precision); a zero dividend with a
nonzero divisor yields canonical zero; with both nonzero it succeeds whenever
the requested precision is at least `-5`, and raises the scaling RangeError
when the precision is below `-5`. -/
theorem div_error_cases (a b : BigNum) (p : Int) :
    (b.coefficient = 0 → div a b p = .error .divisionByZero) ∧
      (b.coefficient ≠ 0 → a.coefficient = 0 → div a b p = .ok ZERO) ∧
      (b.coefficient ≠ 0 → a.coefficient ≠ 0 → -5 ≤ p →
        div a b p = .ok (divCore a b p)) ∧
      (b.coefficient ≠ 0 → a.coefficient ≠ 0 → p < -5 →
        div a b p = .error .rangeError) := by
  refine ⟨fun hb => ?_, fun hb ha => ?_, fun hb ha hp => ?_, fun hb ha hp => ?_⟩
  · unfold div; rw [if_pos hb]
  · unfold div; rw [if_neg hb, if_pos ha]
  · unfold div
    rw [if_neg hb, if_neg ha, if_neg (show ¬(p + 5 < 0) by omega)]
  · unfold div
    rw [if_neg hb, if_neg ha, if_pos (show p + 5 < 0 by omega)]

/-- Witness for `div_error_cases` at concrete inputs. -/
theorem div_error_cases_witness :
    div one ZERO 40 = .error .divisionByZero ∧ div ZERO one 40 = .ok ZERO ∧
      div one ⟨3, 0, 1⟩ 40 = .ok (divCore one ⟨3, 0, 1⟩ 40) := by
  refine ⟨(div_error_cases one ZERO 40).1 (by decide),
    (div_error_cases ZERO one 40).2.1 (by decide) (by decide),
    (div_error_cases one ⟨3, 0, 1⟩ 40).2.2.1 (by decide) (by decide) (by decide)⟩

/-- C4 counterexample to "it fails in no other case": with nonzero divisor
and dividend, precision `-6` makes `BigInt(10) ** BigInt(-1)` raise a
RangeError. -/
theorem div_error_cases_cex :
    one.coefficient ≠ 0 ∧ div one one (-6) = .error .rangeError := by decide

end BigNum

namespace BigNum

/-! ## The misaligned `_align` and its consequences for `add` and `cmp` -/

/-- C1 (code bug): the header of the source promises
`BigNum.from("1.23e400").add(BigNum.from("4.56e399")).toString()` is
`"1.686e+400"`, but `_align` scales the coefficient of the operand with the
*smaller* exponent and pairs it with the *larger* exponent, so the sum comes
out as `4.683e+401` — its value is not the sum of the operands' values. -/
theorem add_exactness_bug :
    fromString "1.23e400" = .ok ⟨123, 398, 1⟩ ∧
      fromString "4.56e399" = .ok ⟨456, 397, 1⟩ ∧
      add ⟨123, 398, 1⟩ ⟨456, 397, 1⟩ = ⟨4683, 398, 1⟩ ∧
      BigNum.toString (add ⟨123, 398, 1⟩ ⟨456, 397, 1⟩) 4 = "4.683e+401" ∧
      value (add ⟨123, 398, 1⟩ ⟨456, 397, 1⟩) ≠
        value ⟨123, 398, 1⟩ + value ⟨456, 397, 1⟩ := by
  refine ⟨by decide, by decide, by decide, by decide, ?_⟩
  have hadd : add ⟨123, 398, 1⟩ ⟨456, 397, 1⟩ = ⟨4683, 398, 1⟩ := by decide
  rw [hadd]
  unfold value
  push_cast
  intro h
  have h397 : ((10 : ℚ) ^ (397 : ℤ)) ≠ 0 := zpow_ne_zero _ (by norm_num)
  have h398 : ((10 : ℚ) ^ (398 : ℤ)) = 10 * 10 ^ (397 : ℤ) := by
    rw [show (398 : ℤ) = 1 + 397 by norm_num,
      zpow_add₀ (show (10 : ℚ) ≠ 0 by norm_num)]
    norm_num
  rw [h398] at h
  apply h397
  have h2 : (45144 : ℚ) * (10 : ℚ) ^ (397 : ℤ) = 0 := by linarith
  rcases mul_eq_zero.mp h2 with h3 | h3
  · exact absurd h3 (by norm_num)
  · exact h3

/-- C2 (code bug): `cmp`'s contract comment says it returns `-1` exactly when
the receiver is smaller, but through the misaligned `_align` it reports
`10 < 5`: `cmp(parse("10"), parse("5"))` is `-1` while the value of `10`
exceeds the value of `5`. -/
theorem cmp_order_bug :
    fromString "10" = .ok ⟨1, 1, 1⟩ ∧ fromString "5" = .ok ⟨5, 0, 1⟩ ∧
      BigNum.cmp ⟨1, 1, 1⟩ ⟨5, 0, 1⟩ = -1 ∧
      value ⟨5, 0, 1⟩ < value ⟨1, 1, 1⟩ := by
  refine ⟨by decide, by decide, by decide, ?_⟩
  unfold value
  push_cast
  rw [zpow_zero, zpow_one]
  norm_num

/-! ## Additive identity and inverse -/

/-- A well-formed positive-coefficient triple passes through the constructor
unchanged except for the ToInt32 coercion of its exponent. -/
theorem mkBigNum_eq_of_pos (c e s : Int) (hc : 0 < c) (hd : ¬(10 ∣ c))
    (hs : s = 1 ∨ s = -1) : mkBigNum c e s = ⟨c, toInt32 e, s⟩ := by
  unfold mkBigNum
  rw [if_neg (by omega : ¬c = 0)]
  dsimp only
  rw [stripZeros_eq_self _ _ hd]
  rw [if_neg (by omega : ¬c < 0)]
  rcases hs with h | h <;> simp [h]

/-- C9 (amended): for every well-formed value whose exponent lies in the
32-bit range, adding zero returns it unchanged and adding its negation
returns canonical zero. -/
theorem add_identity_inverse (x : BigNum) (hx : WF x)
    (he : -2 ^ 31 ≤ x.exponent ∧ x.exponent < 2 ^ 31) :
    add x ZERO = x ∧ add x (negate x) = ZERO := by
  obtain ⟨⟨hzero, hnz⟩, hsign⟩ := hx
  by_cases hc : x.coefficient = 0
  · obtain ⟨he0, hs0⟩ := hzero hc
    have hxz : x = ⟨0, 0, 1⟩ := by cases x; simp_all
    subst hxz
    exact ⟨rfl, rfl⟩
  · obtain ⟨hpos, hdvd⟩ := hnz hc
    have hid : mkBigNum x.coefficient x.exponent x.sign = x :=
      mkBigNum_id x ⟨⟨hzero, hnz⟩, hsign⟩ he
    constructor
    · show add x ZERO = x
      unfold add
      rw [if_neg hc, if_pos (show ZERO.coefficient = 0 from rfl)]
      exact hid
    · have hneg : negate x = ⟨x.coefficient, x.exponent, -x.sign⟩ := by
        unfold negate
        rw [mkBigNum_eq_of_pos _ _ _ hpos hdvd (by rcases hsign with h | h <;>
          simp [h]), toInt32_id _ he.1 he.2]
      rw [hneg]
      unfold add
      rw [if_neg hc]
      rw [if_neg (show ¬(⟨x.coefficient, x.exponent, -x.sign⟩ : BigNum).coefficient = 0 from hc)]
      have halign : align x ⟨x.coefficient, x.exponent, -x.sign⟩ =
          (x.coefficient * x.sign, x.coefficient * -x.sign, x.exponent) := by
        unfold align
        rw [if_neg hc]
        rw [if_neg (show ¬(⟨x.coefficient, x.exponent, -x.sign⟩ : BigNum).coefficient = 0 from hc)]
        rw [if_pos rfl]
      rw [halign]
      dsimp only
      rw [if_pos (by ring)]

/-- Witness for `add_identity_inverse` at the concrete value `5e3`. -/
theorem add_identity_inverse_witness :
    add ⟨5, 3, 1⟩ ZERO = ⟨5, 3, 1⟩ ∧ add ⟨5, 3, 1⟩ (negate ⟨5, 3, 1⟩) = ZERO :=
  add_identity_inverse ⟨5, 3, 1⟩ (by decide) (by decide)

/-- C9 counterexample to the unrestricted claim: the constructor can return a
value whose exponent is `2^31` (stripping a trailing zero after the wrap),
and adding zero to that value does not return it unchanged — the copy wraps
its exponent to `-2^31`. -/
theorem add_identity_inverse_cex :
    mkBigNum 10 (2 ^ 31 - 1) 1 = ⟨1, 2 ^ 31, 1⟩ ∧
      add ⟨1, 2 ^ 31, 1⟩ ZERO ≠ ⟨1, 2 ^ 31, 1⟩ := by decide


/-! ## Exponentiation -/

theorem toInt32_idem (e : Int) : toInt32 (toInt32 e) = toInt32 e := by
  unfold toInt32; omega

/-- Residue arithmetic: a coefficient not divisible by ten has square and cube
not divisible by ten either. -/
theorem not_ten_dvd_sq_cube (c : Int) (h : ¬(10 ∣ c)) :
    ¬(10 ∣ c * c) ∧ ¬(10 ∣ c * (c * c)) ∧ ¬(10 ∣ (c * c) * c) := by
  rw [Int.dvd_iff_emod_eq_zero] at h
  have h9 : c % 10 = 1 ∨ c % 10 = 2 ∨ c % 10 = 3 ∨ c % 10 = 4 ∨ c % 10 = 5 ∨
      c % 10 = 6 ∨ c % 10 = 7 ∨ c % 10 = 8 ∨ c % 10 = 9 := by omega
  refine ⟨?_, ?_, ?_⟩ <;> rw [Int.dvd_iff_emod_eq_zero]
  · rw [Int.mul_emod]
    rcases h9 with h9 | h9 | h9 | h9 | h9 | h9 | h9 | h9 | h9 <;> rw [h9] <;> decide
  · rw [Int.mul_emod, Int.mul_emod c c]
    rcases h9 with h9 | h9 | h9 | h9 | h9 | h9 | h9 | h9 | h9 <;> rw [h9] <;> decide
  · rw [Int.mul_emod, Int.mul_emod c c]
    rcases h9 with h9 | h9 | h9 | h9 | h9 | h9 | h9 | h9 | h9 <;> rw [h9] <;> decide

theorem mul_eq (X Y : BigNum) (hX : X.coefficient ≠ 0) (hY : Y.coefficient ≠ 0) :
    mul X Y = mkBigNum (X.coefficient * Y.coefficient)
      (X.exponent + Y.exponent) (X.sign * Y.sign) := by
  unfold mul
  rw [if_neg (by tauto)]

/-- Three iterations unfold the square-and-multiply loop at exponent `3`. -/
theorem powLoop_three (r bb : BigNum) :
    powLoop r bb 3 = mul (mul r bb) (mul bb bb) := by
  show powLoopF 4 r bb 3 = _
  rw [powLoopF, if_pos (by norm_num),
    if_pos (show toInt32 3 % 2 = 1 by decide),
    show toInt32 3 / 2 = 1 by decide]
  rw [powLoopF, if_pos (by norm_num),
    if_pos (show toInt32 1 % 2 = 1 by decide),
    show toInt32 1 / 2 = 0 by decide]
  rw [powLoopF, if_neg (by norm_num)]

/-- Multiplication of two explicit nonzero triples. -/
theorem mul_mk (c1 e1 s1 c2 e2 s2 : Int) (h1 : c1 ≠ 0) (h2 : c2 ≠ 0) :
    mul ⟨c1, e1, s1⟩ ⟨c2, e2, s2⟩ = mkBigNum (c1 * c2) (e1 + e2) (s1 * s2) := by
  unfold mul
  dsimp only
  rw [if_neg (not_or.mpr ⟨h1, h2⟩)]

/-- C7: for every well-formed value, `pow 3` equals `a.mul(a).mul(a)` as an
identical triple, and `pow 0` is one. The exponent bookkeeping agrees on both
sides because ToInt32 is a congruence modulo `2^32`. -/
theorem pow_cube_and_zero (a : BigNum) (ha : WF a) :
    pow a 3 40 = .ok (mul (mul a a) a) ∧ pow a 0 40 = .ok one := by
  obtain ⟨c, e, s⟩ := a
  obtain ⟨⟨hzero, hnz⟩, hsign⟩ := ha
  dsimp only at hzero hnz hsign
  constructor
  · have hstep : pow (⟨c, e, s⟩ : BigNum) 3 40 = .ok (powLoop (mkBigNum 1 0 1)
        (mkBigNum c e s) (3 : ℚ).num) := by
      unfold pow
      rw [if_neg (by decide), if_neg (by decide), if_pos (by decide)]
    rw [hstep, show ((3 : ℚ).num) = 3 by decide, powLoop_three]
    by_cases hc : c = 0
    · subst hc
      obtain ⟨he0, hs0⟩ := hzero rfl
      subst he0; subst hs0
      decide
    · obtain ⟨hpos, hdvd⟩ := hnz hc
      obtain ⟨hsq, hcube, hcube3⟩ := not_ten_dvd_sq_cube c hdvd
      have hss : s * s = 1 := by rcases hsign with h | h <;> rw [h] <;> norm_num
      have hsqpos : (0 : Int) < c * c := mul_pos hpos hpos
      have hb0 : mkBigNum c e s = ⟨c, toInt32 e, s⟩ :=
        mkBigNum_eq_of_pos _ _ _ hpos hdvd hsign
    -- the four multiplications, each on explicit triples
      have hA1 : mul ⟨1, 0, 1⟩ ⟨c, toInt32 e, s⟩ = ⟨c, toInt32 e, s⟩ := by
        rw [mul_mk _ _ _ _ _ _ one_ne_zero hc, one_mul, zero_add, one_mul,
          mkBigNum_eq_of_pos _ _ _ hpos hdvd hsign, toInt32_idem]
      have hA2 : mul ⟨c, toInt32 e, s⟩ ⟨c, toInt32 e, s⟩ =
          ⟨c * c, toInt32 (toInt32 e + toInt32 e), 1⟩ := by
        rw [mul_mk _ _ _ _ _ _ hc hc, hss,
          mkBigNum_eq_of_pos _ _ _ hsqpos hsq (Or.inl rfl)]
      have hA3 : mul ⟨c, toInt32 e, s⟩
          ⟨c * c, toInt32 (toInt32 e + toInt32 e), 1⟩ =
          ⟨c * (c * c),
            toInt32 (toInt32 e + toInt32 (toInt32 e + toInt32 e)), s⟩ := by
        rw [mul_mk _ _ _ _ _ _ hc hsqpos.ne', mul_one,
          mkBigNum_eq_of_pos _ _ _ (mul_pos hpos hsqpos) hcube hsign]
      have hB1 : mul ⟨c, e, s⟩ ⟨c, e, s⟩ = ⟨c * c, toInt32 (e + e), 1⟩ := by
        rw [mul_mk _ _ _ _ _ _ hc hc, hss,
          mkBigNum_eq_of_pos _ _ _ hsqpos hsq (Or.inl rfl)]
      have hB2 : mul ⟨c * c, toInt32 (e + e), 1⟩ ⟨c, e, s⟩ =
          ⟨c * c * c, toInt32 (toInt32 (e + e) + e), s⟩ := by
        rw [mul_mk _ _ _ _ _ _ hsqpos.ne' hc, one_mul,
          mkBigNum_eq_of_pos _ _ _ (mul_pos hsqpos hpos) hcube3 hsign]
      rw [hb0, show mkBigNum 1 0 1 = (⟨1, 0, 1⟩ : BigNum) by decide,
        hA1, hA2, hA3, hB1, hB2]
      simp only [Except.ok.injEq, BigNum.mk.injEq]
      refine ⟨by ring, ?_, trivial⟩
      unfold toInt32
      omega
  · unfold pow
    rw [if_neg (by decide), if_pos rfl]
    rfl

/-- Witness for `pow_cube_and_zero` at the concrete value `2`. -/
theorem pow_cube_and_zero_witness :
    pow ⟨2, 0, 1⟩ 3 40 = .ok (mul (mul ⟨2, 0, 1⟩ ⟨2, 0, 1⟩) ⟨2, 0, 1⟩) ∧
      pow ⟨2, 0, 1⟩ 0 40 = .ok one :=
  pow_cube_and_zero ⟨2, 0, 1⟩ (by decide)

/-- `div` can only fail with the division-by-zero or RangeError errors,
never with the invalid-exponent one. -/
theorem div_never_invalid (x y : BigNum) (p : Int) :
    div x y p ≠ .error .invalidExponent := by
  unfold div
  split
  · simp
  · split
    · simp
    · split <;> simp

/-- C8: `pow` fails with the invalid-exponent error exactly when the supplied
exponent is not an integer; integer exponents (positive, zero or negative)
never produce this error. -/
theorem pow_invalid_exponent_iff (a : BigNum) (n : ℚ) (p : Int) :
    pow a n p = .error .invalidExponent ↔ n.isInt = false := by
  constructor
  · intro h
    by_cases hi : n.isInt
    · exfalso
      unfold pow at h
      rw [if_neg (by simp [hi])] at h
      split at h
      · cases h
      · split at h
        · cases h
        · exact div_never_invalid _ _ _ h
    · simpa using hi
  · intro h
    unfold pow
    rw [if_pos (by simp [h])]

/-- Witness for `pow_invalid_exponent_iff`: the non-integer exponent `1/2`
raises the invalid-exponent error. -/
theorem pow_invalid_exponent_iff_witness :
    pow one (Rat.mk' 1 2 (by decide) (by decide)) 40 = .error .invalidExponent :=
  (pow_invalid_exponent_iff one (Rat.mk' 1 2 (by decide) (by decide)) 40).mpr
    (by decide)

end BigNum

/-! ## The parser accepts exactly the (amended) grammar -/

theorem spanDigits_append_eq (l : List Char) :
    (spanDigits l).1 ++ (spanDigits l).2 = l := by
  induction l with
  | nil => rfl
  | cons c cs ih =>
    rw [spanDigits]
    by_cases h : c.isDigit
    · rw [if_pos h]
      dsimp only
      rw [List.cons_append, ih]
    · rw [if_neg h]
      rfl

theorem spanDigits_digits (l : List Char) :
    ∀ c ∈ (spanDigits l).1, c.isDigit = true := by
  induction l with
  | nil => intro c hc; cases hc
  | cons c cs ih =>
    rw [spanDigits]
    by_cases h : c.isDigit
    · rw [if_pos h]
      dsimp only
      intro x hx
      rcases List.mem_cons.mp hx with rfl | hx
      · exact h
      · exact ih x hx
    · rw [if_neg h]
      intro x hx
      cases hx

theorem spanDigits_exact (a b : List Char) (ha : ∀ c ∈ a, c.isDigit = true)
    (hb : ∀ c cs, b = c :: cs → ¬(c.isDigit = true)) :
    spanDigits (a ++ b) = (a, b) := by
  induction a with
  | nil =>
    rw [List.nil_append]
    cases b with
    | nil => rfl
    | cons c cs => rw [spanDigits, if_neg (hb c cs rfl)]
  | cons x xs ih =>
    rw [List.cons_append, spanDigits,
      if_pos (ha x (List.mem_cons_self x xs))]
    dsimp only
    rw [ih (fun c hc => ha c (List.mem_cons_of_mem _ hc))]

theorem parseSignChar_sound (l : List Char) :
    ∃ sg, SignOpt sg ∧ l = sg ++ (parseSignChar l).2 := by
  cases l with
  | nil => exact ⟨[], Or.inl rfl, rfl⟩
  | cons c cs =>
    by_cases h1 : c = '+'
    · subst h1
      refine ⟨['+'], Or.inr (Or.inl rfl), ?_⟩
      rw [parseSignChar, if_pos rfl]
      rfl
    · by_cases h2 : c = '-'
      · subst h2
        refine ⟨['-'], Or.inr (Or.inr rfl), ?_⟩
        rw [parseSignChar, if_neg (by decide), if_pos rfl]
        rfl
      · refine ⟨[], Or.inl rfl, ?_⟩
        rw [parseSignChar, if_neg h1, if_neg h2]
        rfl

theorem parseSignChar_strip (sg rest : List Char) (h : SignOpt sg)
    (hr : ∀ c cs, rest = c :: cs → c ≠ '+' ∧ c ≠ '-') :
    ∃ m1, parseSignChar (sg ++ rest) = (m1, rest) := by
  rcases h with rfl | rfl | rfl
  · rw [List.nil_append]
    cases rest with
    | nil => exact ⟨none, rfl⟩
    | cons c cs =>
      obtain ⟨h1, h2⟩ := hr c cs rfl
      exact ⟨none, by rw [parseSignChar, if_neg h1, if_neg h2]⟩
  · exact ⟨some '+', by rw [List.cons_append, List.nil_append, parseSignChar,
      if_pos rfl]⟩
  · exact ⟨some '-', by rw [List.cons_append, List.nil_append, parseSignChar,
      if_neg (by decide), if_pos rfl]⟩

theorem parseCore_sound (l m2 l2 : List Char)
    (h : parseCore l = some (m2, l2)) : l = m2 ++ l2 ∧ CoreAmended m2 := by
  cases l with
  | nil => cases h
  | cons c cs =>
    rw [parseCore] at h
    by_cases hc : c = '.'
    · rw [if_pos hc] at h
      dsimp only at h
      by_cases hp : (spanDigits cs).1 = []
      · rw [if_pos hp] at h; cases h
      · rw [if_neg hp] at h
        cases h
        subst hc
        refine ⟨?_, Or.inr (Or.inr ⟨(spanDigits cs).1, rfl,
          hp, spanDigits_digits cs⟩)⟩
        rw [List.cons_append, spanDigits_append_eq cs]
    · rw [if_neg hc] at h
      dsimp only at h
      by_cases hp : (spanDigits (c :: cs)).1 = []
      · rw [if_pos hp] at h; cases h
      · rw [if_neg hp] at h
        by_cases hh : (spanDigits (c :: cs)).2.head? = some '.'
        · rw [if_pos hh] at h
          cases h
          have hsplit : (spanDigits (c :: cs)).2 =
              '.' :: (spanDigits (c :: cs)).2.tail := by
            cases h2 : (spanDigits (c :: cs)).2 with
            | nil => rw [h2] at hh; cases hh
            | cons x xs =>
              rw [h2] at hh
              cases hh
              rfl
          constructor
          · calc c :: cs
                = (spanDigits (c :: cs)).1 ++ (spanDigits (c :: cs)).2 :=
                  (spanDigits_append_eq _).symm
              _ = (spanDigits (c :: cs)).1 ++
                    ('.' :: (spanDigits (c :: cs)).2.tail) := by rw [← hsplit]
              _ = (spanDigits (c :: cs)).1 ++ ('.' ::
                    ((spanDigits ((spanDigits (c :: cs)).2.tail)).1 ++
                      (spanDigits ((spanDigits (c :: cs)).2.tail)).2)) := by
                  rw [spanDigits_append_eq]
              _ = ((spanDigits (c :: cs)).1 ++ '.' ::
                    (spanDigits ((spanDigits (c :: cs)).2.tail)).1) ++
                    (spanDigits ((spanDigits (c :: cs)).2.tail)).2 := by
                  simp
          · exact Or.inr (Or.inl ⟨(spanDigits (c :: cs)).1,
              (spanDigits (spanDigits (c :: cs)).2.tail).1, rfl,
              ⟨hp, spanDigits_digits _⟩, spanDigits_digits _⟩)
        · rw [if_neg hh] at h
          cases h
          exact ⟨(spanDigits_append_eq (c :: cs)).symm,
            Or.inl ⟨hp, spanDigits_digits _⟩⟩

theorem parseExpPart_sound (l : List Char) (m3 : Option Int)
    (h : parseExpPart l = some m3) : ExpOpt l := by
  cases l with
  | nil => exact Or.inl rfl
  | cons c cs =>
    rw [parseExpPart] at h
    by_cases he : c = 'e' ∨ c = 'E'
    · rw [if_pos he] at h
      dsimp only at h
      obtain ⟨sg, hsg, hcs⟩ := parseSignChar_sound cs
      by_cases hcond : (spanDigits (parseSignChar cs).2).1 = [] ∨
          (spanDigits (parseSignChar cs).2).2 ≠ []
      · rw [if_pos hcond] at h; cases h
      · rw [if_neg hcond] at h
        push_neg at hcond
        refine Or.inr ⟨c, sg, (spanDigits (parseSignChar cs).2).1, ?_, he,
          hsg, hcond.1, spanDigits_digits _⟩
        have h2 : (spanDigits (parseSignChar cs).2).1 = (parseSignChar cs).2 := by
          conv_rhs => rw [← spanDigits_append_eq (parseSignChar cs).2]
          rw [hcond.2, List.append_nil]
        rw [h2, ← hcs]
    · rw [if_neg he] at h; cases h

theorem jsMatch_sound (l : List Char)
    (r : Option Char × List Char × Option Int) (h : jsMatch l = some r) :
    MatchesAmended l := by
  unfold jsMatch at h
  dsimp only at h
  obtain ⟨sg, hsg, hl⟩ := parseSignChar_sound l
  cases hpc : parseCore (parseSignChar l).2 with
  | none => rw [hpc] at h; cases h
  | some val =>
    obtain ⟨m2, l2⟩ := val
    rw [hpc] at h
    dsimp only at h
    cases hpe : parseExpPart l2 with
    | none => rw [hpe] at h; cases h
    | some m3 =>
      obtain ⟨hsplit, hcore⟩ := parseCore_sound _ m2 l2 hpc
      exact ⟨sg, m2, l2, by rw [hl, hsplit, List.append_assoc], hsg, hcore,
        parseExpPart_sound l2 m3 hpe⟩

theorem digit_not_special (c : Char) (h : c.isDigit = true) :
    c ≠ '+' ∧ c ≠ '-' ∧ c ≠ '.' ∧ c ≠ 'e' ∧ c ≠ 'E' := by
  refine ⟨?_, ?_, ?_, ?_, ?_⟩ <;> rintro rfl <;> cases h

theorem coreAmended_head (core : List Char) (h : CoreAmended core) :
    ∃ c cs, core = c :: cs ∧ c ≠ '+' ∧ c ≠ '-' := by
  rcases h with ⟨hne, hdig⟩ | ⟨a, b, rfl, ⟨hane, hadig⟩, hbdig⟩ |
    ⟨b, rfl, hbne, hbdig⟩
  · cases core with
    | nil => exact absurd rfl hne
    | cons c cs =>
      have hd := digit_not_special c (hdig c (List.mem_cons_self c cs))
      exact ⟨c, cs, rfl, hd.1, hd.2.1⟩
  · cases a with
    | nil => exact absurd rfl hane
    | cons c cs =>
      have hd := digit_not_special c (hadig c (List.mem_cons_self c cs))
      exact ⟨c, cs ++ '.' :: b, List.cons_append c cs _, hd.1, hd.2.1⟩
  · exact ⟨'.', b, rfl, by decide, by decide⟩

theorem expOpt_head (ex : List Char) (h : ExpOpt ex) :
    ∀ c cs, ex = c :: cs → ¬(c.isDigit = true) ∧ c ≠ '.' := by
  intro c cs hc
  rcases h with rfl | ⟨m, sg, ds, heq, hm, _, _⟩
  · cases hc
  · rw [heq] at hc
    cases hc
    rcases hm with rfl | rfl
    · exact ⟨by decide, by decide⟩
    · exact ⟨by decide, by decide⟩

theorem parseCore_complete (core ex : List Char) (hcore : CoreAmended core)
    (hex : ∀ c cs, ex = c :: cs → ¬(c.isDigit = true) ∧ c ≠ '.') :
    parseCore (core ++ ex) = some (core, ex) := by
  have hexd : ∀ c cs, ex = c :: cs → ¬(c.isDigit = true) :=
    fun c cs h => (hex c cs h).1
  have hexhead : ex.head? ≠ some '.' := by
    cases hx : ex with
    | nil => simp
    | cons c cs =>
      have := (hex c cs hx).2
      simp [this]
  rcases hcore with ⟨hne, hdig⟩ | ⟨a, b, rfl, ⟨hane, hadig⟩, hbdig⟩ |
    ⟨b, rfl, hbne, hbdig⟩
  · cases core with
    | nil => exact absurd rfl hne
    | cons c cs =>
      have hc : c.isDigit = true := hdig c (List.mem_cons_self c cs)
      have hs := spanDigits_exact (c :: cs) ex hdig hexd
      rw [List.cons_append, parseCore,
        if_neg (digit_not_special c hc).2.2.1, ← List.cons_append, hs]
      dsimp only
      rw [if_neg hne, if_neg hexhead]
  · cases a with
    | nil => exact absurd rfl hane
    | cons c cs =>
      have hc : c.isDigit = true := hadig c (List.mem_cons_self c cs)
      have hs : spanDigits ((c :: cs) ++ ('.' :: (b ++ ex))) =
          (c :: cs, '.' :: (b ++ ex)) :=
        spanDigits_exact _ _ hadig (by
          intro x xs hx
          cases hx
          decide)
      have heq : (c :: cs) ++ '.' :: b ++ ex = (c :: cs) ++ ('.' :: (b ++ ex)) := by
        simp
      rw [heq, List.cons_append, parseCore,
        if_neg (digit_not_special c hc).2.2.1, ← List.cons_append, hs]
      dsimp only
      rw [if_neg (show ¬(c :: cs = []) by simp),
        if_pos (show ('.' :: (b ++ ex)).head? = some '.' from rfl),
        List.tail_cons, spanDigits_exact b ex hbdig hexd]
  · rw [List.cons_append, parseCore, if_pos rfl]
    dsimp only
    rw [spanDigits_exact b ex hbdig hexd]
    rw [if_neg hbne]

theorem parseExpPart_complete (ex : List Char) (hex : ExpOpt ex) :
    ∃ m3, parseExpPart ex = some m3 := by
  rcases hex with rfl | ⟨m, sg, ds, rfl, hm, hsg, hdne, hddig⟩
  · exact ⟨none, rfl⟩
  · have hds : ∀ c cs, ds = c :: cs → c ≠ '+' ∧ c ≠ '-' := by
      intro c cs hc
      have hcd := hddig c (by rw [hc]; exact List.mem_cons_self c cs)
      exact ⟨(digit_not_special c hcd).1, (digit_not_special c hcd).2.1⟩
    obtain ⟨m1, hm1⟩ := parseSignChar_strip sg ds hsg hds
    rw [parseExpPart, if_pos hm]
    dsimp only
    rw [hm1]
    have hspan : spanDigits ds = (ds, []) := by
      have := spanDigits_exact ds [] hddig (by intro c cs h; cases h)
      rwa [List.append_nil] at this
    rw [hspan]
    rw [if_neg (by simp [hdne])]
    exact ⟨_, rfl⟩

theorem jsMatch_complete (l : List Char) (h : MatchesAmended l) :
    ∃ r, jsMatch l = some r := by
  obtain ⟨sg, core, ex, rfl, hsg, hcore, hex⟩ := h
  obtain ⟨c0, cs0, hcore0, hc1, hc2⟩ := coreAmended_head core hcore
  have hrest : ∀ c cs, core ++ ex = c :: cs → c ≠ '+' ∧ c ≠ '-' := by
    intro c cs hc
    rw [hcore0, List.cons_append] at hc
    cases hc
    exact ⟨hc1, hc2⟩
  obtain ⟨m1, hm1⟩ := parseSignChar_strip sg (core ++ ex) hsg hrest
  have hpc := parseCore_complete core ex hcore (expOpt_head ex hex)
  obtain ⟨m3, hm3⟩ := parseExpPart_complete ex hex
  refine ⟨(m1, core, m3), ?_⟩
  rw [List.append_assoc]
  unfold jsMatch
  dsimp only
  rw [hm1]
  dsimp only
  rw [hpc]
  dsimp only
  rw [hm3]

namespace BigNum

/-- C5 (amended): after trimming surrounding whitespace, empty input fails
with the empty-input error; nonempty trimmed input parses successfully
exactly when it matches the grammar — optional sign, then digits (optionally
followed by a point and optional further digits) or a point with digits,
then an optional `e`/`E` exponent with optional sign and digits — and any
other nonempty input fails with the invalid-format error. -/
theorem parse_accepts_grammar (str : String) :
    (jsTrim str.data = [] → fromString str = .error .emptyInput) ∧
      (jsTrim str.data ≠ [] →
        ((∃ b, fromString str = .ok b) ↔ MatchesAmended (jsTrim str.data)) ∧
          (¬MatchesAmended (jsTrim str.data) →
            fromString str = .error .invalidFormat)) := by
  constructor
  · intro h
    unfold fromString
    rw [if_pos h]
  · intro hne
    refine ⟨⟨?_, ?_⟩, ?_⟩
    · rintro ⟨b, hb⟩
      unfold fromString at hb
      rw [if_neg hne] at hb
      cases hjm : jsMatch (jsTrim str.data) with
      | none => rw [hjm] at hb; cases hb
      | some r => exact jsMatch_sound _ r hjm
    · intro hm
      obtain ⟨r, hr⟩ := jsMatch_complete _ hm
      unfold fromString
      rw [if_neg hne]
      obtain ⟨m1, m2, m3⟩ := r
      rw [hr]
      exact ⟨_, rfl⟩
    · intro hm
      unfold fromString
      rw [if_neg hne]
      cases hjm : jsMatch (jsTrim str.data) with
      | none => rfl
      | some r => exact absurd (jsMatch_sound _ r hjm) hm

/-- C5 counterexample to the grammar exactly as the claim states it: `"1."`
— digits, a point and nothing after it — is accepted by the parser, yet it
matches none of the three stated number-body alternatives `digits`,
`digits.digits`, `.digits`. -/
theorem parse_accepts_grammar_cex :
    fromString "1." = .ok ⟨1, 0, 1⟩ ∧ ¬MatchesStrict ['1', '.'] := by
  refine ⟨by decide, ?_⟩
  rintro ⟨sg, core, ex, heq, hsg, hcore, hex⟩
  have hsg0 : sg = [] := by
    rcases hsg with rfl | rfl | rfl
    · rfl
    · cases heq
    · cases heq
  subst hsg0
  rw [List.nil_append] at heq
  have hcorene : core ≠ [] := by
    rcases hcore with ⟨h1, _⟩ | ⟨a, b, rfl, _, _⟩ | ⟨b, rfl, _, _⟩
    · exact h1
    · simp
    · simp
  have hexlen : ex = [] ∨ 2 ≤ ex.length := by
    rcases hex with rfl | ⟨m, sg2, ds, rfl, _, _, ⟨hdsne, _⟩⟩
    · exact Or.inl rfl
    · right
      have hds1 : 1 ≤ ds.length := List.length_pos.mpr hdsne
      simp only [List.length_cons, List.length_append]
      omega
  have hlen : core.length + ex.length = 2 := by
    have h2 := congrArg List.length heq
    simp only [List.length_append, List.length_cons, List.length_nil] at h2
    omega
  have hex0 : ex = [] := by
    rcases hexlen with h | h
    · exact h
    · have hc1 : 1 ≤ core.length := List.length_pos.mpr hcorene
      omega
  subst hex0
  rw [List.append_nil] at heq
  rcases hcore with ⟨_, hdig⟩ | ⟨a, b, hab, ⟨hane, _⟩, ⟨hbne, _⟩⟩ |
    ⟨b, hb, _⟩
  · exact absurd (hdig '.' (by rw [← heq]; simp)) (by decide)
  · rw [← heq] at hab
    have h2 := congrArg List.length hab
    simp only [List.length_append, List.length_cons, List.length_nil] at h2
    have ha1 : 1 ≤ a.length := List.length_pos.mpr hane
    have hb1 : 1 ≤ b.length := List.length_pos.mpr hbne
    omega
  · rw [← heq] at hb
    cases hb

/-- Witness for `parse_accepts_grammar`: the empty string raises the
empty-input error and `"42"` parses successfully. -/
theorem parse_accepts_grammar_witness :
    fromString "" = .error .emptyInput ∧ ∃ b, fromString "42" = .ok b := by
  refine ⟨(parse_accepts_grammar "").1 (by decide), ?_⟩
  refine ((parse_accepts_grammar "42").2 (by decide)).1.mpr ?_
  exact ⟨[], ['4', '2'], [], by decide, Or.inl rfl,
    Or.inl ⟨by decide, by decide⟩, Or.inl rfl⟩

end BigNum
